import Mathlib

/-!
Verification of the layout engine of the mindmaps-ai repository
(`src/utils/layout.ts`, current version: the exported `applyLayout` together
with `layoutMindmap`, `layoutLayered`, `layoutGrid` and `assignBranchColors`).

Modelling conventions of this shallow embedding:
* Node and edge objects are Lean structures mirroring the fields the engine
  reads or writes (`DiagramNode`, `DiagramEdge`).  The caller-side clone
  (`nodes.map(n => ({...n}))`) together with in-place mutation of the clones
  is modelled as a pure function from input lists to output lists.
* All coordinates computed by the engine are integer-valued: every division
  in the source (`h / 2`, `total / 2`, `(size - 1) * spacing / 2`) divides an
  even integer by two exactly, because all subtree heights are sums of the
  even slot constant 60 and all layer extents are multiples of even spacing
  constants.  Positions are therefore embedded as `Int` pairs; `/` below is
  exact on every value it is applied to.
* The barycenter comparator of the crossing-reduction step compares the
  rational numbers `sum/len`; it is embedded as the cross-multiplied integer
  comparison (`s1 * c2 ≤ s2 * c1`), exact for the nonnegative values involved,
  with the `-1` sentinel for parent-less nodes as a separate case.  The
  JavaScript array sort with a consistent comparator is a stable ascending
  sort; it is embedded as a stable insertion sort, which produces the same
  list.
* The `Map`-based rank table with `ranks.get(v) || 0` is embedded as a total
  function `String → Nat` defaulting to 0, which has identical lookup
  behaviour.  The recursive tree traversals carry explicit fuel; the fuel
  chosen strictly dominates the recursion depth of the source (which is
  bounded by the visited-set guards), so the fallback branches are never
  taken on the traces the source can execute.
-/

namespace Mindmaps

inductive DiagramType
  | MINDMAP
  | FLOWCHART
  | ERD
  | ORG_CHART
  deriving DecidableEq, Repr

inductive LayoutStyle
  | TREE
  | RADIAL
  | HIERARCHICAL
  | CIRCULAR
  | NETWORK
  deriving DecidableEq, Repr

structure Position where
  x : Int
  y : Int
  deriving DecidableEq, Repr

structure EdgeStyle where
  stroke : String
  strokeWidth : Int
  deriving DecidableEq, Repr

structure DiagramNode where
  id : String
  label : String
  details : Option String := none
  type : Option String := none
  position : Position := ⟨0, 0⟩
  deriving DecidableEq, Repr

structure DiagramEdge where
  id : String
  source : String
  target : String
  label : Option String := none
  style : Option EdgeStyle := none
  animated : Option Bool := none
  deriving DecidableEq, Repr

/-- Adjacency view `source → [targets]`, in edge-list order (the source builds
it by pushing `e.target` onto `adj.get(e.source)` while iterating `edges`). -/
def adjOf (edges : List DiagramEdge) (s : String) : List String :=
  (edges.filter (fun e => e.source == s)).map (·.target)

def hasIncoming (edges : List DiagramEdge) (v : String) : Bool :=
  edges.any (fun e => e.target == v)

/-! ### Rank assignment (`layoutLayered`, step 1) -/

/-- Pointwise update of the rank table, modelling `ranks.set(k, v)`. -/
def updF (r : String → Nat) (k : String) (v : Nat) : String → Nat :=
  fun x => if x = k then v else r x

/-- One edge relaxation: `if (targetRank < sourceRank + 1) ranks.set(target, sourceRank + 1)`. -/
def relaxStep (r : String → Nat) (e : DiagramEdge) : String → Nat :=
  if r e.target < r e.source + 1 then updF r e.target (r e.source + 1) else r

/-- One full pass over the edge list, also tracking the `changed` flag. -/
def relaxPassAux (edges : List DiagramEdge) (acc : (String → Nat) × Bool) :
    (String → Nat) × Bool :=
  edges.foldl
    (fun acc e =>
      if acc.1 e.target < acc.1 e.source + 1 then
        (updF acc.1 e.target (acc.1 e.source + 1), true)
      else acc)
    acc

def relaxPass (edges : List DiagramEdge) (r : String → Nat) : (String → Nat) × Bool :=
  relaxPassAux edges (r, false)

/-- The iteration loop: up to the given number of passes, stopping early when a
pass reports no change (the source runs `iterations = nodes.length + 2`). -/
def relaxLoop (edges : List DiagramEdge) : Nat → (String → Nat) → (String → Nat)
  | 0, r => r
  | k + 1, r =>
    let p := relaxPass edges r
    if p.2 then relaxLoop edges k p.1 else p.1

/-- Final rank table of `layoutLayered`'s step 1. -/
def computeRanks (nodes : List DiagramNode) (edges : List DiagramEdge) : String → Nat :=
  relaxLoop edges (nodes.length + 2) (fun _ => 0)

/-! ### Crossing reduction and coordinate assignment (`layoutLayered`, steps 2 and 3) -/

/-- Stable insertion into an ascending list: the new element goes after every
element `b` with `le b a`.  Used to model the stable ascending JS sort. -/
def stInsert (le : α → α → Bool) : List α → α → List α
  | [], a => [a]
  | b :: bs, a => if le b a then b :: stInsert le bs a else a :: b :: bs

/-- Stable ascending sort by the boolean comparison `le`. -/
def stableSortBy (le : α → α → Bool) (l : List α) : List α :=
  l.foldl (stInsert le) []

/-- The nodes of one rank, paired with their index in the input node list
(the index plays the role of the mutated node object's identity). -/
def layerGroup (nodes : List DiagramNode) (ranks : String → Nat) (r : Nat) :
    List (Nat × DiagramNode) :=
  nodes.enum.filter (fun p => ranks p.2.id == r)

/-- Index of the last occurrence of `sid` in the previous layer, defaulting to
0: models `new Map(prevLayer.map((n, idx) => [n.id, idx]))` (last entry wins)
followed by `prevIndexMap.get(e.source) ?? 0`. -/
def lastIdxOf (prev : List (Nat × DiagramNode)) (sid : String) : Nat :=
  prev.enum.foldl (fun acc q => if q.2.2.id == sid then q.1 else acc) 0

/-- Membership in the rank map's domain when the barycenter step runs: node
ids are seeded at the start, and every edge target is assigned an entry during
the (always executed) first pass.  A dangling id that only ever occurs as a
source stays absent: the source's `ranks.get(e.source) === i - 1` (no `|| 0`
fallback here) is then false for every layer. -/
def inRankDomain (nodes : List DiagramNode) (edges : List DiagramEdge) (s : String) : Bool :=
  nodes.any (fun n => n.id == s) || edges.any (fun e => e.target == s)

/-- Barycenter key of a node of layer `r` with respect to the previous layer:
`none` models the `-1` sentinel for nodes without parents in layer `r - 1`,
otherwise the pair (sum of parent indices, parent count) representing the
rational mean. -/
def baryKey (nodes : List DiagramNode) (edges : List DiagramEdge) (ranks : String → Nat)
    (r : Nat) (prev : List (Nat × DiagramNode)) (n : DiagramNode) : Option (Nat × Nat) :=
  let parents := edges.filter (fun e =>
    e.target == n.id && (inRankDomain nodes edges e.source && ranks e.source == r - 1))
  if parents.isEmpty then none
  else some (parents.foldl (fun acc e => acc + lastIdxOf prev e.source) 0, parents.length)

/-- Comparison of barycenter keys, `none` standing for `-1` (sorts first);
`s1/c1 ≤ s2/c2` cross-multiplied. -/
def baryLe : Option (Nat × Nat) → Option (Nat × Nat) → Bool
  | none, _ => true
  | some _, none => false
  | some (s1, c1), some (s2, c2) => s1 * c2 ≤ s2 * c1

/-- The layers after the sequential barycenter sweep: layer 0 keeps input
order, layer `r + 1` is stably sorted by barycenter with respect to the
already-sorted layer `r`. -/
def sortedLayer (nodes : List DiagramNode) (edges : List DiagramEdge)
    (ranks : String → Nat) : Nat → List (Nat × DiagramNode)
  | 0 => layerGroup nodes ranks 0
  | r + 1 =>
    let prev := sortedLayer nodes edges ranks r
    stableSortBy
      (fun a b =>
        baryLe (baryKey nodes edges ranks (r + 1) prev a.2)
          (baryKey nodes edges ranks (r + 1) prev b.2))
      (layerGroup nodes ranks (r + 1))

inductive Direction
  | TB
  | LR
  deriving DecidableEq, Repr

/-- Coordinate assignment of `layoutLayered` for the node of input index `i`:
its layer is the sorted layer of its own rank, `idx` its position in that
layer, `size` the layer size.  `TB` places
`(idx * 200 - (size - 1) * 100, r * 100)` (the source's
`-(width / 2) + idx * X_SPACING` with `width = (size - 1) * 200` even), `LR`
places `(r * 300, idx * 100 - (size - 1) * 50)` likewise. -/
def layeredPosition (nodes : List DiagramNode) (edges : List DiagramEdge)
    (ranks : String → Nat) (dir : Direction) (i : Nat) (n : DiagramNode) : Position :=
  let r := ranks n.id
  let layer := sortedLayer nodes edges ranks r
  let size := layer.length
  let idx := layer.findIdx (fun p => p.1 == i)
  match dir with
  | .TB => ⟨(idx : Int) * 200 - ((size : Int) - 1) * 100, (r : Int) * 100⟩
  | .LR => ⟨(r : Int) * 300, (idx : Int) * 100 - ((size : Int) - 1) * 50⟩

def layoutLayered (nodes : List DiagramNode) (edges : List DiagramEdge)
    (dir : Direction) : List DiagramNode :=
  let ranks := computeRanks nodes edges
  nodes.enum.map fun p =>
    { p.2 with position := layeredPosition nodes edges ranks dir p.1 p.2 }

/-! ### Grid layout (`layoutGrid`) -/

/-- Ceiling of the square root: the least `k` with `n ≤ k * k`, i.e.
`Math.ceil(Math.sqrt(n))`. -/
def ceilSqrt (n : Nat) : Nat :=
  ((List.range (n + 2)).find? (fun k => n ≤ k * k)).getD 0

def layoutGrid (nodes : List DiagramNode) : List DiagramNode :=
  let cols := ceilSqrt nodes.length
  nodes.enum.map fun p =>
    { p.2 with position := ⟨((p.1 % cols : Nat) : Int) * 300, ((p.1 / cols : Nat) : Int) * 200⟩ }

/-! ### Balanced horizontal tree layout (`layoutMindmap`) -/

/-- State of the subtree-height computation: the cycle-guard `visited` set and
the `nodeData` height table (`(id, height)` pairs, most recent first). -/
structure HState where
  visited : List String
  data : List (String × Int)
  deriving Repr

def lookupH (d : List (String × Int)) (k : String) : Option Int :=
  (d.find? (fun p => p.1 == k)).map (·.2)

/-- Lookup modelling `nodeData.get(c)?.height || MINDMAP_NODE_HEIGHT_SLOT`. -/
def getH (d : List (String × Int)) (k : String) : Int :=
  (lookupH d k).getD 60

/-- Lookup modelling `nodeData.get(c)?.height || 0`. -/
def getH0 (d : List (String × Int)) (k : String) : Int :=
  (lookupH d k).getD 0

mutual
/-- The recursive `calculateSubtreeHeight`: an already-visited node counts as a
leaf slot of height 60 and is not re-entered; otherwise the height is 60 for a
childless node and the sum of the children's heights else, recorded in `data`. -/
def calcH (edges : List DiagramEdge) : Nat → String → HState → (Int × HState)
  | 0, _, st => (60, st)
  | fuel + 1, id, st =>
    if id ∈ st.visited then (60, st)
    else
      let st1 : HState := { st with visited := id :: st.visited }
      let children := adjOf edges id
      if children.isEmpty then (60, { st1 with data := (id, 60) :: st1.data })
      else
        let p := calcHList edges fuel children st1
        (p.1, { p.2 with data := (id, p.1) :: p.2.data })

/-- Sequential fold of `calcH` over a child list, summing the heights. -/
def calcHList (edges : List DiagramEdge) : Nat → List String → HState → (Int × HState)
  | _, [], st => (0, st)
  | 0, _ :: _, st => (0, st)
  | fuel + 1, c :: cs, st =>
    let p := calcH edges fuel c st
    let q := calcHList edges fuel cs p.2
    (p.1 + q.1, q.2)
end

/-- Placement state: the position table (`id ↦ position`, most recent
assignment first, modelling repeated in-place mutation of the first node object
with that id) and the `positioned` id set. -/
structure MState where
  posMap : List (String × Position)
  positioned : List String
  deriving Repr

def lookupPos (m : List (String × Position)) (k : String) : Option Position :=
  (m.find? (fun p => p.1 == k)).map (·.2)

mutual
/-- The recursive `placeNode`: record the position for `id` when a node with
that id exists, mark it positioned, and lay its children out vertically
centered around `y`, each child's horizontal offset `direction * 250`. -/
def placeNode (nodes : List DiagramNode) (edges : List DiagramEdge)
    (data : List (String × Int)) :
    Nat → String → Int → Int → Int → MState → MState
  | 0, _, _, _, _, st => st
  | fuel + 1, id, x, y, dirn, st =>
    let st1 : MState :=
      { posMap := if nodes.any (fun n => n.id == id) then (id, ⟨x, y⟩) :: st.posMap
                  else st.posMap,
        positioned := id :: st.positioned }
    let children := adjOf edges id
    if children.isEmpty then st1
    else
      let total := children.foldl (fun acc c => acc + getH data c) 0
      placeChildren nodes edges data fuel children x (y - total / 2) dirn st1

/-- The `children.forEach` body of `placeNode`: advance a vertical cursor by
each child's subtree height, recursing only into children not yet positioned. -/
def placeChildren (nodes : List DiagramNode) (edges : List DiagramEdge)
    (data : List (String × Int)) :
    Nat → List String → Int → Int → Int → MState → MState
  | _, [], _, _, _, st => st
  | 0, _ :: _, _, _, _, st => st
  | fuel + 1, c :: cs, x, curY, dirn, st =>
    let h := getH data c
    let cy := curY + h / 2
    let cx := x + dirn * 250
    let st1 := if c ∈ st.positioned then st else placeNode nodes edges data fuel c cx cy dirn st
    placeChildren nodes edges data fuel cs x (curY + h) dirn st1
end

/-- Entries at even indices (the "right" alternating split of the root's
children). -/
def altEven (l : List α) : List α :=
  (l.enum.filter (fun p => p.1 % 2 == 0)).map (·.2)

/-- Entries at odd indices (the "left" split). -/
def altOdd (l : List α) : List α :=
  (l.enum.filter (fun p => p.1 % 2 == 1)).map (·.2)

/-- Fuel dominating the recursion depth of the source traversals (which the
visited/positioned guards bound by the number of distinct mentioned ids). -/
def mindmapFuel (nodes : List DiagramNode) (edges : List DiagramEdge) : Nat :=
  2 * nodes.length + 3 * edges.length + 4

/-- Place one side's root children: cursor starts at `-(total / 2)`, each child
is placed at vertical center `cursor + h / 2` and the cursor advances by `h`. -/
def placeSide (nodes : List DiagramNode) (edges : List DiagramEdge)
    (data : List (String × Int)) (children : List String) (x : Int) (dirn : Int)
    (total : Int) (st : MState) : MState :=
  (children.foldl
    (fun (p : Int × MState) c =>
      let h := getH data c
      (p.1 + h, placeNode nodes edges data (mindmapFuel nodes edges) c x (p.1 + h / 2) dirn p.2))
    (-(total / 2), st)).2

/-- The placement state produced by `layoutMindmap` together with the length of
the root's child list (used by the island fallback `y` formula). -/
def mindmapState (nodes : List DiagramNode) (edges : List DiagramEdge) : MState × Nat :=
  match nodes with
  | [] => (⟨[], []⟩, 0)
  | n0 :: _ =>
    let root := (nodes.find? (fun n => !(hasIncoming edges n.id))).getD n0
    let data := (calcH edges (mindmapFuel nodes edges) root.id ⟨[], []⟩).2.data
    let st0 : MState := ⟨[(root.id, ⟨0, 0⟩)], [root.id]⟩
    let rootChildren := adjOf edges root.id
    let rightC := altEven rootChildren
    let leftC := altOdd rootChildren
    let rightTotal := rightC.foldl (fun acc c => acc + getH0 data c) 0
    let leftTotal := leftC.foldl (fun acc c => acc + getH0 data c) 0
    let st1 := placeSide nodes edges data rightC 250 1 rightTotal st0
    let st2 := placeSide nodes edges data leftC (-250) (-1) leftTotal st1
    (st2, rootChildren.length)

/-- Rebuild the node list from the placement state: the first node object of a
positioned id takes its recorded position, a later duplicate object of a
positioned id keeps its input position (only the first `nodes.find` match is
mutated by the source), and every node whose id was never positioned becomes
the `i`-th island at `(0, rootChildCount * 100 + i * 100)`. -/
def applyMindmapPositions (posMap : List (String × Position)) (positioned : List String)
    (rc : Nat) : List DiagramNode → List String → Nat → List DiagramNode
  | [], _, _ => []
  | n :: rest, seen, islandIdx =>
    if n.id ∈ positioned then
      (if n.id ∈ seen then n else { n with position := (lookupPos posMap n.id).getD n.position }) ::
        applyMindmapPositions posMap positioned rc rest (n.id :: seen) islandIdx
    else
      { n with position := ⟨0, (rc : Int) * 100 + (islandIdx : Int) * 100⟩ } ::
        applyMindmapPositions posMap positioned rc rest (n.id :: seen) (islandIdx + 1)

def layoutMindmap (nodes : List DiagramNode) (edges : List DiagramEdge) : List DiagramNode :=
  match nodes with
  | [] => nodes
  | _ :: _ =>
    let p := mindmapState nodes edges
    applyMindmapPositions p.1.posMap p.1.positioned p.2 nodes [] 0

/-! ### Branch color propagation (`assignBranchColors`) -/

def BRANCH_COLORS : List String :=
  ["#2563eb", "#db2777", "#d97706", "#16a34a", "#7c3aed",
   "#0891b2", "#dc2626", "#4f46e5", "#be185d", "#059669"]

/-- Style the first edge matching `pred` (the source's `edges.find` followed by
in-place mutation of that edge object), leaving all other edges unchanged. -/
def styleFirst (pred : DiagramEdge → Bool) (stl : EdgeStyle) :
    List DiagramEdge → List DiagramEdge
  | [] => []
  | e :: es =>
    if pred e then { e with style := some stl, animated := some false } :: es
    else e :: styleFirst pred stl es

/-- Update of the `branchColors` map. -/
def updC (c : String → Option String) (k : String) (v : String) :
    String → Option String :=
  fun x => if x = k then some v else c x

/-- Coloring state: the `branchColors` map, the BFS queue and the edge list
styled so far. -/
structure CState where
  colors : String → Option String
  queue : List (String × Option String)
  edges : List DiagramEdge

/-- One child of the initialization phase: the root child at index `p.1`
receives `BRANCH_COLORS[p.1 % 10]`, is queued, and the first `root → child`
edge is styled with that color. -/
def initStep (rootId : String) (st : CState) (p : Nat × String) : CState :=
  let color := BRANCH_COLORS.getD (p.1 % BRANCH_COLORS.length) ""
  { colors := updC st.colors p.2 color,
    queue := st.queue ++ [(p.2, some color)],
    edges := styleFirst (fun e => e.source == rootId && e.target == p.2) ⟨color, 2⟩ st.edges }

/-- Initialization phase: the root's direct children receive their palette
colors in child-list order (an id listed twice is assigned twice, later index
winning). -/
def initBranch (rootId : String) (rootChildren : List String)
    (edges : List DiagramEdge) : CState :=
  rootChildren.enum.foldl (initStep rootId) ⟨fun _ => none, [], edges⟩

/-- One dequeued entry's child scan: each not-yet-colored child inherits the
entry's color, is queued, and the first `parent → child` edge is styled. -/
def colorChildren (id : String) (c : String) (children : List String) (st : CState) : CState :=
  children.foldl
    (fun st2 cid =>
      if (st2.colors cid).isSome then st2
      else
        { colors := updC st2.colors cid c,
          queue := st2.queue ++ [(cid, some c)],
          edges := styleFirst (fun e => e.source == id && e.target == cid) ⟨c, 2⟩ st2.edges })
    st

/-- The BFS while-loop over the queue. -/
def bfsColor (allEdges : List DiagramEdge) : Nat → CState → CState
  | 0, st => st
  | fuel + 1, st =>
    match st.queue with
    | [] => st
    | (_, none) :: rest => bfsColor allEdges fuel { st with queue := rest }
    | (id, some c) :: rest =>
      bfsColor allEdges fuel (colorChildren id c (adjOf allEdges id) { st with queue := rest })

/-- Root choice of `assignBranchColors`: the first node with zero incoming
count, else the first node. -/
def branchRoot (nodes : List DiagramNode) (edges : List DiagramEdge)
    (n0 : DiagramNode) : DiagramNode :=
  (nodes.find? (fun n => (edges.filter (fun e => e.target == n.id)).length == 0)).getD n0

/-- The full coloring state of `assignBranchColors`. -/
def branchFinal (nodes : List DiagramNode) (edges : List DiagramEdge) : CState :=
  match nodes with
  | [] => ⟨fun _ => none, [], edges⟩
  | n0 :: _ =>
    let root := branchRoot nodes edges n0
    bfsColor edges (2 * edges.length + 2) (initBranch root.id (adjOf edges root.id) edges)

def assignBranchColors (nodes : List DiagramNode) (edges : List DiagramEdge) :
    List DiagramEdge :=
  match nodes with
  | [] => edges
  | _ :: _ => (branchFinal nodes edges).edges

/-! ### The engine entry point (`applyLayout`) -/

def uniformEdge (e : DiagramEdge) : DiagramEdge :=
  { e with style := some ⟨"#64748b", 2⟩, animated := some false }

def applyLayout (nodes : List DiagramNode) (edges : List DiagramEdge)
    (style : LayoutStyle) (diagramType : DiagramType) :
    List DiagramNode × List DiagramEdge :=
  let newNodes :=
    match diagramType with
    | .MINDMAP => layoutMindmap nodes edges
    | .ERD => layoutGrid nodes
    | .FLOWCHART => layoutLayered nodes edges (if style = .RADIAL then .LR else .TB)
    | .ORG_CHART => layoutLayered nodes edges (if style = .RADIAL then .LR else .TB)
  let newEdges :=
    if diagramType = .MINDMAP ∨ diagramType = .ORG_CHART then
      assignBranchColors newNodes edges
    else
      edges.map uniformEdge
  (newNodes, newEdges)

/-! ### Projections and predicates used by the theorem statements -/

/-- Every node field except `position`. -/
def nodeCore (n : DiagramNode) : String × String × Option String × Option String :=
  (n.id, n.label, n.details, n.type)

/-- Every edge field except `style` and `animated`. -/
def edgeCore (e : DiagramEdge) : String × String × String × Option String :=
  (e.id, e.source, e.target, e.label)

/-- The output edge either is the input edge unchanged, or differs from it
exactly by carrying a branch-palette stroke of width 2 and `animated = false`. -/
def styledOrKept (e0 e1 : DiagramEdge) : Prop :=
  e1 = e0 ∨ ∃ c ∈ BRANCH_COLORS, e1 = { e0 with style := some ⟨c, 2⟩, animated := some false }

/-- Invariant of the coloring state: every color in the map and in the queue
comes from the branch palette, and the edge list is the input list with some
edges branch-styled in place. -/
def colorInv (edges0 : List DiagramEdge) (st : CState) : Prop :=
  (∀ v c, st.colors v = some c → c ∈ BRANCH_COLORS) ∧
  (∀ q ∈ st.queue, ∀ c, q.2 = some c → c ∈ BRANCH_COLORS) ∧
  List.Forall₂ styledOrKept edges0 st.edges

/-- Membership of a point in the axis-aligned bounding box of a list of
positions. -/
def inBBox (p : Position) (ps : List Position) : Bool :=
  ps.any (fun q => decide (q.x ≤ p.x)) && ps.any (fun q => decide (p.x ≤ q.x)) &&
  ps.any (fun q => decide (q.y ≤ p.y)) && ps.any (fun q => decide (p.y ≤ q.y))

/-! ### Proof-layer definitions for the rank-assignment analysis -/

/-- One pass of edge relaxations, without the `changed` flag. -/
def passFn (edges : List DiagramEdge) (r : String → Nat) : String → Nat :=
  edges.foldl relaxStep r

/-- Plain iteration of `passFn` (no early stop); proved below to agree with
`relaxLoop` because a pass that reports no change leaves the table fixed. -/
def passIter (edges : List DiagramEdge) : Nat → (String → Nat) → (String → Nat)
  | 0, r => r
  | k + 1, r => passIter edges k (passFn edges r)

/-- Pointwise order on rank tables. -/
def rle (r r' : String → Nat) : Prop := ∀ x, r x ≤ r' x

/-- Folded maximum of `r e.source + 1` over the edges of `l` targeting `v`,
starting from base `b`: the value an edge pass gives `v` when the relevant
source ranks stay fixed at `r` throughout the pass. -/
def MBb (v : String) (l : List DiagramEdge) (r : String → Nat) (b : Nat) : Nat :=
  l.foldl (fun m e => if e.target = v then max m (r e.source + 1) else m) b

/-! ### Concrete inputs used by witnesses and counterexamples -/

def c9nodes : List DiagramNode :=
  (List.range 10).map fun i => { id := toString i, label := toString i }

def c7nodes : List DiagramNode :=
  [{ id := "A", label := "A" }, { id := "B", label := "B" }]

def c7edges : List DiagramEdge :=
  [{ id := "AB", source := "A", target := "B" }]

/-- Two real nodes fed by a long chain of dangling ids, edge list in reverse
topological order so each pass advances the relaxation by a single step. -/
def c3nodes : List DiagramNode :=
  [{ id := "A", label := "A" }, { id := "B", label := "B" }]

def c3edges : List DiagramEdge :=
  [{ id := "e1", source := "A", target := "B" },
   { id := "e2", source := "F", target := "A" },
   { id := "e3", source := "E", target := "F" },
   { id := "e4", source := "D", target := "E" },
   { id := "e5", source := "C", target := "D" },
   { id := "e6", source := "Y", target := "C" },
   { id := "e7", source := "X", target := "Y" }]

/-- A topological height certifying that `c3edges` is acyclic. -/
def c3topo (v : String) : Nat :=
  if v = "X" then 0 else if v = "Y" then 1 else if v = "C" then 2
  else if v = "D" then 3 else if v = "E" then 4 else if v = "F" then 5
  else if v = "A" then 6 else 7

def c3wnodes : List DiagramNode :=
  [{ id := "P", label := "P" }, { id := "Q", label := "Q" }]

def c3wedges : List DiagramEdge :=
  [{ id := "PQ", source := "P", target := "Q" }]

def c3wd (v : String) : Nat := if v = "P" then 0 else 1

def c4nodes : List DiagramNode :=
  [{ id := "A", label := "A" }, { id := "B", label := "B" },
   { id := "C", label := "C" }, { id := "D", label := "D" }]

/-- Root `A` lists child `B` twice (duplicate edge), and `B` has child `D`. -/
def c4edges : List DiagramEdge :=
  [{ id := "e1", source := "A", target := "B" },
   { id := "e2", source := "A", target := "C" },
   { id := "e3", source := "A", target := "B" },
   { id := "e4", source := "B", target := "D" }]

def c4wn0 : DiagramNode := { id := "A", label := "A" }

def c4wrest : List DiagramNode :=
  [{ id := "B", label := "B" }, { id := "C", label := "C" }]

def c4wnodes : List DiagramNode := c4wn0 :: c4wrest

def c4wedges : List DiagramEdge :=
  [{ id := "AB", source := "A", target := "B" },
   { id := "AC", source := "A", target := "C" }]

def c5nodes : List DiagramNode :=
  [{ id := "A", label := "A" }, { id := "B", label := "B" }, { id := "C", label := "C" }]

/-- A diamond-ish shape: the cross edge `B → C` is not part of the BFS coloring
tree because `C` is already colored as a direct child of the root. -/
def c5edges : List DiagramEdge :=
  [{ id := "AB", source := "A", target := "B" },
   { id := "AC", source := "A", target := "C" },
   { id := "BC", source := "B", target := "C" }]

def c5wedge : DiagramEdge := { id := "PQ", source := "P", target := "Q" }

def c6nodes : List DiagramNode :=
  [{ id := "R", label := "R" }, { id := "A", label := "A" },
   { id := "L1", label := "L1" }, { id := "L2", label := "L2" },
   { id := "L3", label := "L3" }, { id := "L4", label := "L4" },
   { id := "L5", label := "L5" }, { id := "I", label := "I" }]

/-- A root with a single child that fans out to five leaves, plus the island
`I` with no incident edge. -/
def c6edges : List DiagramEdge :=
  [{ id := "RA", source := "R", target := "A" },
   { id := "A1", source := "A", target := "L1" },
   { id := "A2", source := "A", target := "L2" },
   { id := "A3", source := "A", target := "L3" },
   { id := "A4", source := "A", target := "L4" },
   { id := "A5", source := "A", target := "L5" }]

/-! ### Generic preservation lemmas -/

theorem foldl_preserve {α β : Type} (f : β → α → β) (P : β → Prop)
    (h : ∀ st a, P st → P (f st a)) : ∀ (l : List α) (st : β), P st → P (l.foldl f st) := by
  intro l
  induction l with
  | nil => intro st hst; exact hst
  | cons a l ih => intro st hst; exact ih _ (h st a hst)

theorem styleFirst_map_core (p : DiagramEdge → Bool) (s : EdgeStyle) :
    ∀ l : List DiagramEdge, (styleFirst p s l).map edgeCore = l.map edgeCore := by
  intro l
  induction l with
  | nil => rfl
  | cons e es ih =>
    by_cases hp : p e
    · simp [styleFirst, hp, edgeCore]
    · simp [styleFirst, hp, ih]

theorem colorChildren_map_core (id c : String) (children : List String) (st : CState) :
    (colorChildren id c children st).edges.map edgeCore = st.edges.map edgeCore := by
  unfold colorChildren
  refine foldl_preserve _ (fun s : CState => s.edges.map edgeCore = st.edges.map edgeCore) ?_ children st rfl
  intro st2 cid h2
  by_cases hc : (st2.colors cid).isSome
  · simpa [hc] using h2
  · simpa [hc, styleFirst_map_core] using h2

theorem bfsColor_map_core (allEdges : List DiagramEdge) :
    ∀ (fuel : Nat) (st : CState),
      (bfsColor allEdges fuel st).edges.map edgeCore = st.edges.map edgeCore := by
  intro fuel
  induction fuel with
  | zero => intro st; rfl
  | succ fuel ih =>
    intro st
    match hq : st.queue with
    | [] => simp [bfsColor, hq]
    | (v, none) :: rest => simp [bfsColor, hq, ih]
    | (v, some c) :: rest =>
      simp only [bfsColor, hq, ih, colorChildren_map_core]

theorem initBranch_map_core (rootId : String) (rootChildren : List String)
    (edges : List DiagramEdge) :
    (initBranch rootId rootChildren edges).edges.map edgeCore = edges.map edgeCore := by
  unfold initBranch
  refine foldl_preserve _ (fun s : CState => s.edges.map edgeCore = edges.map edgeCore) ?_ _ _ rfl
  intro st q h
  simpa [initStep, styleFirst_map_core] using h

theorem assignBranchColors_map_core (nodes : List DiagramNode) (edges : List DiagramEdge) :
    (assignBranchColors nodes edges).map edgeCore = edges.map edgeCore := by
  match nodes with
  | [] => rfl
  | n0 :: rest =>
    show (branchFinal (n0 :: rest) edges).edges.map edgeCore = edges.map edgeCore
    unfold branchFinal
    rw [bfsColor_map_core, initBranch_map_core]

theorem map_proj_enum_update {γ : Type} (g : DiagramNode → γ)
    (hg : ∀ n p, g { n with position := p } = g n) (nodes : List DiagramNode)
    (f : Nat × DiagramNode → Position) :
    ((nodes.enum.map fun q => { q.2 with position := f q }).map g) = nodes.map g := by
  rw [List.map_map]
  have h1 : (g ∘ fun q : Nat × DiagramNode => { q.2 with position := f q }) =
      fun q : Nat × DiagramNode => g q.2 := by
    funext q; exact hg q.2 (f q)
  rw [h1]
  have h2 : (fun q : Nat × DiagramNode => g q.2) = g ∘ Prod.snd := rfl
  rw [h2, ← List.map_map, List.enum_map_snd]

theorem amp_map_proj {γ : Type} (g : DiagramNode → γ)
    (hg : ∀ n p, g { n with position := p } = g n)
    (posMap : List (String × Position)) (positioned : List String) (rc : Nat) :
    ∀ (l : List DiagramNode) (seen : List String) (k : Nat),
      (applyMindmapPositions posMap positioned rc l seen k).map g = l.map g := by
  intro l
  induction l with
  | nil => intro seen k; rfl
  | cons n rest ih =>
    intro seen k
    by_cases hpos : n.id ∈ positioned
    · by_cases hseen : n.id ∈ seen
      · simp [applyMindmapPositions, hpos, hseen, ih]
      · simp [applyMindmapPositions, hpos, hseen, ih, hg]
    · simp [applyMindmapPositions, hpos, ih, hg]

theorem layoutMindmap_map_proj {γ : Type} (g : DiagramNode → γ)
    (hg : ∀ n p, g { n with position := p } = g n)
    (nodes : List DiagramNode) (edges : List DiagramEdge) :
    (layoutMindmap nodes edges).map g = nodes.map g := by
  match nodes with
  | [] => rfl
  | n0 :: rest =>
    show (applyMindmapPositions _ _ _ (n0 :: rest) [] 0).map g = (n0 :: rest).map g
    exact amp_map_proj g hg _ _ _ (n0 :: rest) [] 0

theorem applyLayout_node_proj {γ : Type} (g : DiagramNode → γ)
    (hg : ∀ n p, g { n with position := p } = g n)
    (nodes : List DiagramNode) (edges : List DiagramEdge)
    (style : LayoutStyle) (dt : DiagramType) :
    (applyLayout nodes edges style dt).1.map g = nodes.map g := by
  cases dt with
  | MINDMAP => exact layoutMindmap_map_proj g hg nodes edges
  | ERD => exact map_proj_enum_update g hg nodes _
  | FLOWCHART => exact map_proj_enum_update g hg nodes _
  | ORG_CHART => exact map_proj_enum_update g hg nodes _

theorem map_uniform_proj {γ : Type} (g : DiagramEdge → γ)
    (hg : ∀ e s a, g { e with style := s, animated := a } = g e) (edges : List DiagramEdge) :
    (edges.map uniformEdge).map g = edges.map g := by
  rw [List.map_map]
  have h1 : (g ∘ uniformEdge) = g := by
    funext e; exact hg e _ _
  rw [h1]

theorem applyLayout_edge_core (nodes : List DiagramNode) (edges : List DiagramEdge)
    (style : LayoutStyle) (dt : DiagramType) :
    (applyLayout nodes edges style dt).2.map edgeCore = edges.map edgeCore := by
  have huni : ∀ e s a, edgeCore { e with style := s, animated := a } = edgeCore e := by
    intro e s a; rfl
  cases dt with
  | MINDMAP => exact assignBranchColors_map_core _ edges
  | ORG_CHART => exact assignBranchColors_map_core _ edges
  | ERD => exact map_uniform_proj edgeCore huni edges
  | FLOWCHART => exact map_uniform_proj edgeCore huni edges

/-! ### Claim theorems -/

/-- C1.  Totality: for every node list and every edge list (self-loops,
duplicate edges, cycles and dangling references included), `applyLayout`
returns exactly as many nodes and exactly as many edges as it was given; every
returned position is an `Int` pair, hence finite (the embedding's arithmetic is
exact integer arithmetic, mirroring that the source computes positions from
constants by sums, products and exact halvings with no NaN or infinity
source). -/
theorem applyLayout_total (nodes : List DiagramNode) (edges : List DiagramEdge)
    (style : LayoutStyle) (dt : DiagramType) :
    (applyLayout nodes edges style dt).1.length = nodes.length ∧
    (applyLayout nodes edges style dt).2.length = edges.length := by
  constructor
  · have h := applyLayout_node_proj nodeCore (fun _ _ => rfl) nodes edges style dt
    simpa using congrArg List.length h
  · have h := applyLayout_edge_core nodes edges style dt
    simpa using congrArg List.length h

/-- C2.  Determinism: two calls of `applyLayout` on equal inputs produce equal
outputs — the engine is a pure function of its four arguments, with no state
surviving between calls. -/
theorem applyLayout_deterministic (n1 n2 : List DiagramNode) (e1 e2 : List DiagramEdge)
    (s1 s2 : LayoutStyle) (t1 t2 : DiagramType)
    (hn : n1 = n2) (he : e1 = e2) (hs : s1 = s2) (ht : t1 = t2) :
    applyLayout n1 e1 s1 t1 = applyLayout n2 e2 s2 t2 := by
  subst hn; subst he; subst hs; subst ht; rfl

theorem applyLayout_deterministic_witness :
    applyLayout [({ id := "A", label := "A" } : DiagramNode)] [] .TREE .FLOWCHART =
      applyLayout [({ id := "A", label := "A" } : DiagramNode)] [] .TREE .FLOWCHART :=
  applyLayout_deterministic _ _ _ _ _ _ _ _ rfl rfl rfl rfl

/-- C8.  Frame condition: `applyLayout` returns nodes that agree with the
corresponding input nodes on every field except `position` (`nodeCore`:
id, label, details, type/kind), in order, and edges that agree with the input
edges on every field except `style` and `animated` (`edgeCore`: id, source,
target, label).  The source clones both lists before laying out, so the
caller's objects are not mutated; the clone discipline is what this pure
embedding reflects. -/
theorem applyLayout_frame (nodes : List DiagramNode) (edges : List DiagramEdge)
    (style : LayoutStyle) (dt : DiagramType) :
    (applyLayout nodes edges style dt).1.map nodeCore = nodes.map nodeCore ∧
    (applyLayout nodes edges style dt).2.map edgeCore = edges.map edgeCore :=
  ⟨applyLayout_node_proj nodeCore (fun _ _ => rfl) nodes edges style dt,
   applyLayout_edge_core nodes edges style dt⟩

/-- C9.  Grid layout formula: for an ERD diagram the node at input index `i`
is positioned at `(i mod cols * 300, i div cols * 200)` with
`cols = ceil(sqrt(nodeCount))`. -/
theorem grid_formula (nodes : List DiagramNode) (edges : List DiagramEdge)
    (style : LayoutStyle) (i : Nat) (h : i < nodes.length) :
    ((applyLayout nodes edges style .ERD).1[i]?).map (·.position) =
      some ⟨((i % ceilSqrt nodes.length : Nat) : Int) * 300,
            ((i / ceilSqrt nodes.length : Nat) : Int) * 200⟩ := by
  show ((layoutGrid nodes)[i]?).map (·.position) = _
  unfold layoutGrid
  rw [List.getElem?_map, List.getElem?_enum, List.getElem?_eq_getElem h]
  rfl

/-- C9 witness: ten ERD entities give `ceil(sqrt(10)) = 4` columns; the node at
index 5 sits in column 1 of row 1, at `(300, 200)`. -/
theorem grid_formula_witness :
    ceilSqrt 10 = 4 ∧
    ((applyLayout c9nodes [] .TREE .ERD).1[5]?).map (·.position) = some ⟨300, 200⟩ := by
  refine ⟨by decide, Eq.trans (grid_formula c9nodes [] .TREE 5 (by decide)) ?_⟩
  decide

/-- C10.  Order preservation: the output node list carries the input ids in
input order, and the output edge list carries the input edge ids in input
order — the strategies only assign positions and styles, never insert, drop or
reorder list entries. -/
theorem applyLayout_order_preserved (nodes : List DiagramNode) (edges : List DiagramEdge)
    (style : LayoutStyle) (dt : DiagramType) :
    (applyLayout nodes edges style dt).1.map (·.id) = nodes.map (·.id) ∧
    (applyLayout nodes edges style dt).2.map (·.id) = edges.map (·.id) := by
  constructor
  · exact applyLayout_node_proj (·.id) (fun _ _ => rfl) nodes edges style dt
  · have h := applyLayout_edge_core nodes edges style dt
    have hpr : ∀ l : List DiagramEdge, l.map (·.id) = (l.map edgeCore).map (·.1) := by
      intro l; rw [List.map_map]; rfl
    rw [hpr, h, ← hpr]

/-! ### Rank relaxation: loop structure -/

theorem relaxPassAux_fst : ∀ (l : List DiagramEdge) (acc : (String → Nat) × Bool),
    (relaxPassAux l acc).1 = passFn l acc.1 := by
  intro l
  induction l with
  | nil => intro acc; rfl
  | cons e l ih =>
    intro acc
    show (relaxPassAux l (if acc.1 e.target < acc.1 e.source + 1 then
        (updF acc.1 e.target (acc.1 e.source + 1), true) else acc)).1 =
      passFn l (relaxStep acc.1 e)
    rw [ih]
    by_cases hc : acc.1 e.target < acc.1 e.source + 1
    · simp [hc, relaxStep]
    · simp [hc, relaxStep]

theorem relaxPassAux_flag_true : ∀ (l : List DiagramEdge) (r : String → Nat),
    (relaxPassAux l (r, true)).2 = true := by
  intro l
  induction l with
  | nil => intro r; rfl
  | cons e l ih =>
    intro r
    show (relaxPassAux l (if r e.target < r e.source + 1 then
        (updF r e.target (r e.source + 1), true) else (r, true))).2 = true
    by_cases hc : r e.target < r e.source + 1
    · rw [if_pos hc]; exact ih _
    · rw [if_neg hc]; exact ih r

theorem relaxPass_no_change : ∀ (l : List DiagramEdge) (r : String → Nat),
    (relaxPassAux l (r, false)).2 = false → passFn l r = r := by
  intro l
  induction l with
  | nil => intro r _; rfl
  | cons e l ih =>
    intro r h
    by_cases hc : r e.target < r e.source + 1
    · exfalso
      have h2 : (relaxPassAux l (updF r e.target (r e.source + 1), true)).2 = false := by
        have hstep : relaxPassAux (e :: l) (r, false) =
            relaxPassAux l (updF r e.target (r e.source + 1), true) := by
          show relaxPassAux l (if r e.target < r e.source + 1 then
              (updF r e.target (r e.source + 1), true) else (r, false)) = _
          rw [if_pos hc]
        rw [← hstep]; exact h
      rw [relaxPassAux_flag_true] at h2
      exact Bool.noConfusion h2
    · have hstep : relaxPassAux (e :: l) (r, false) = relaxPassAux l (r, false) := by
        show relaxPassAux l (if r e.target < r e.source + 1 then
            (updF r e.target (r e.source + 1), true) else (r, false)) = _
        rw [if_neg hc]
      rw [hstep] at h
      have hfix := ih r h
      show passFn l (relaxStep r e) = r
      rw [show relaxStep r e = r from by simp [relaxStep, hc]]
      exact hfix

theorem passFn_fix_iter (edges : List DiagramEdge) (r : String → Nat)
    (h : passFn edges r = r) : ∀ k, passIter edges k r = r := by
  intro k
  induction k with
  | zero => rfl
  | succ k ih =>
    show passIter edges k (passFn edges r) = r
    rw [h]; exact ih

theorem relaxLoop_eq_passIter (edges : List DiagramEdge) :
    ∀ (k : Nat) (r : String → Nat), relaxLoop edges k r = passIter edges k r := by
  intro k
  induction k with
  | zero => intro r; rfl
  | succ k ih =>
    intro r
    have hfst : (relaxPass edges r).1 = passFn edges r := relaxPassAux_fst edges (r, false)
    by_cases hp : (relaxPass edges r).2 = true
    · have hl : relaxLoop edges (k + 1) r = relaxLoop edges k (relaxPass edges r).1 := by
        simp [relaxLoop, hp]
      rw [hl, ih, hfst]; rfl
    · have hp' : (relaxPass edges r).2 = false := by
        cases hb : (relaxPass edges r).2
        · rfl
        · exact absurd hb hp
      have hl : relaxLoop edges (k + 1) r = (relaxPass edges r).1 := by
        simp [relaxLoop, hp']
      have hfix : passFn edges r = r := relaxPass_no_change edges r hp'
      rw [hl, hfst, hfix]
      show r = passIter edges k (passFn edges r)
      rw [hfix, passFn_fix_iter edges r hfix k]

theorem computeRanks_eq_iter (nodes : List DiagramNode) (edges : List DiagramEdge) :
    computeRanks nodes edges = passIter edges (nodes.length + 2) (fun _ => 0) :=
  relaxLoop_eq_passIter edges (nodes.length + 2) (fun _ => 0)

/-! ### Rank relaxation: monotonicity and per-pass value analysis -/

theorem relaxStep_mono (r : String → Nat) (e : DiagramEdge) : rle r (relaxStep r e) := by
  intro x
  unfold relaxStep
  by_cases hc : r e.target < r e.source + 1
  · rw [if_pos hc]
    unfold updF
    by_cases hx : x = e.target
    · rw [if_pos hx, hx]; exact Nat.le_of_lt hc
    · rw [if_neg hx]
  · rw [if_neg hc]

theorem passFn_mono : ∀ (l : List DiagramEdge) (r : String → Nat), rle r (passFn l r) := by
  intro l
  induction l with
  | nil => intro r x; exact Nat.le_refl _
  | cons e l ih =>
    intro r x
    exact Nat.le_trans (relaxStep_mono r e x) (ih (relaxStep r e) x)

theorem relaxStep_notouch (r : String → Nat) (e : DiagramEdge) (v : String)
    (h : e.target ≠ v) : relaxStep r e v = r v := by
  unfold relaxStep
  by_cases hc : r e.target < r e.source + 1
  · rw [if_pos hc]
    unfold updF
    rw [if_neg (fun hv => h hv.symm)]
  · rw [if_neg hc]

theorem passFn_notouch (v : String) : ∀ (l : List DiagramEdge) (r : String → Nat),
    (∀ e ∈ l, e.target ≠ v) → passFn l r v = r v := by
  intro l
  induction l with
  | nil => intro r _; rfl
  | cons e l ih =>
    intro r h
    show passFn l (relaxStep r e) v = r v
    rw [ih _ (fun e' he' => h e' (List.mem_cons_of_mem e he')),
      relaxStep_notouch r e v (h e (List.mem_cons_self e l))]

theorem passIter_notouch (edges : List DiagramEdge) (v : String)
    (h : ∀ e ∈ edges, e.target ≠ v) : ∀ (k : Nat) (r : String → Nat),
    passIter edges k r v = r v := by
  intro k
  induction k with
  | zero => intro r; rfl
  | succ k ih =>
    intro r
    show passIter edges k (passFn edges r) v = r v
    rw [ih (passFn edges r), passFn_notouch v edges r h]

theorem relaxStep_val (r : String → Nat) (e : DiagramEdge) (v : String) :
    relaxStep r e v = if e.target = v then max (r v) (r e.source + 1) else r v := by
  by_cases ht : e.target = v
  · rw [if_pos ht]
    unfold relaxStep
    by_cases hc : r e.target < r e.source + 1
    · rw [if_pos hc]
      unfold updF
      rw [if_pos ht.symm]
      rw [ht] at hc
      omega
    · rw [if_neg hc]
      rw [ht] at hc
      omega
  · rw [if_neg ht]
    exact relaxStep_notouch r e v ht

theorem passIter_succ (edges : List DiagramEdge) : ∀ (k : Nat) (r : String → Nat),
    passIter edges (k + 1) r = passFn edges (passIter edges k r) := by
  intro k
  induction k with
  | zero => intro r; rfl
  | succ k ih =>
    intro r
    show passIter edges (k + 1) (passFn edges r) = _
    rw [ih (passFn edges r)]
    rfl

theorem MBb_ge_base (v : String) : ∀ (l : List DiagramEdge) (r : String → Nat) (b : Nat),
    b ≤ MBb v l r b := by
  intro l
  induction l with
  | nil => intro r b; exact Nat.le_refl _
  | cons e l ih =>
    intro r b
    show b ≤ MBb v l r (if e.target = v then max b (r e.source + 1) else b)
    by_cases ht : e.target = v
    · rw [if_pos ht]
      exact Nat.le_trans (Nat.le_max_left _ _) (ih r _)
    · rw [if_neg ht]
      exact ih r b

theorem MBb_ge_elem (v : String) : ∀ (l : List DiagramEdge) (r : String → Nat) (b : Nat)
    (e : DiagramEdge), e ∈ l → e.target = v → r e.source + 1 ≤ MBb v l r b := by
  intro l
  induction l with
  | nil => intro r b e he _; cases he
  | cons e0 l ih =>
    intro r b e he ht
    rcases List.mem_cons.mp he with h0 | hmem
    · subst h0
      show r e.source + 1 ≤ MBb v l r (if e.target = v then max b (r e.source + 1) else b)
      rw [if_pos ht]
      exact Nat.le_trans (Nat.le_max_right _ _) (MBb_ge_base v l r _)
    · show r e.source + 1 ≤ MBb v l r (if e0.target = v then max b (r e0.source + 1) else b)
      exact ih r _ e hmem ht

theorem MBb_congr (v : String) : ∀ (l : List DiagramEdge) (ra rb : String → Nat) (b : Nat),
    (∀ e ∈ l, e.target = v → ra e.source = rb e.source) →
    MBb v l ra b = MBb v l rb b := by
  intro l
  induction l with
  | nil => intro ra rb b _; rfl
  | cons e l ih =>
    intro ra rb b h
    show MBb v l ra (if e.target = v then max b (ra e.source + 1) else b) =
      MBb v l rb (if e.target = v then max b (rb e.source + 1) else b)
    have hb : (if e.target = v then max b (ra e.source + 1) else b) =
        (if e.target = v then max b (rb e.source + 1) else b) := by
      by_cases ht : e.target = v
      · rw [if_pos ht, if_pos ht, h e (List.mem_cons_self e l) ht]
      · rw [if_neg ht, if_neg ht]
    rw [hb]
    exact ih ra rb _ (fun e' he' ht' => h e' (List.mem_cons_of_mem e he') ht')

theorem MBb_as_max (v : String) : ∀ (l : List DiagramEdge) (r : String → Nat) (b : Nat),
    MBb v l r b = max b (MBb v l r 0) := by
  intro l
  induction l with
  | nil => intro r b; simp [MBb]
  | cons e l ih =>
    intro r b
    by_cases ht : e.target = v
    · show MBb v l r (if e.target = v then max b (r e.source + 1) else b) =
        max b (MBb v l r (if e.target = v then max 0 (r e.source + 1) else 0))
      rw [if_pos ht, if_pos ht, ih r (max b (r e.source + 1)), ih r (max 0 (r e.source + 1))]
      omega
    · show MBb v l r (if e.target = v then max b (r e.source + 1) else b) =
        max b (MBb v l r (if e.target = v then max 0 (r e.source + 1) else 0))
      rw [if_neg ht, if_neg ht]
      exact ih r b

theorem MBb_idem (v : String) (l : List DiagramEdge) (r : String → Nat) (b : Nat) :
    MBb v l r (MBb v l r b) = MBb v l r b := by
  rw [MBb_as_max v l r (MBb v l r b), MBb_as_max v l r b]
  omega

/-- The value an edge pass gives `v` when the ranks of all sources feeding `v`
are unchanged by the pass: the fold of `max` with `source rank + 1` over the
edges into `v`. -/
theorem foldVal (v : String) : ∀ (l : List DiagramEdge) (r : String → Nat),
    (∀ e ∈ l, e.target = v → passFn l r e.source = r e.source) →
    passFn l r v = MBb v l r (r v) := by
  intro l
  induction l with
  | nil => intro r _; rfl
  | cons e l ih =>
    intro r hflat
    have hsrc : ∀ e' ∈ l, e'.target = v →
        relaxStep r e e'.source = r e'.source ∧
        passFn l (relaxStep r e) e'.source = relaxStep r e e'.source := by
      intro e' he' ht'
      have h0 : passFn l (relaxStep r e) e'.source = r e'.source :=
        hflat e' (List.mem_cons_of_mem e he') ht'
      have h1 : r e'.source ≤ relaxStep r e e'.source := relaxStep_mono r e e'.source
      have h2 : relaxStep r e e'.source ≤ passFn l (relaxStep r e) e'.source :=
        passFn_mono l (relaxStep r e) e'.source
      omega
    have ihh := ih (relaxStep r e) (fun e' he' ht' => by
      rw [(hsrc e' he' ht').2, (hsrc e' he' ht').1])
    show passFn l (relaxStep r e) v = MBb v (e :: l) r (r v)
    rw [ihh]
    have hcongr : MBb v l (relaxStep r e) (relaxStep r e v) = MBb v l r (relaxStep r e v) :=
      MBb_congr v l _ _ _ (fun e' he' ht' => (hsrc e' he' ht').1)
    rw [hcongr, relaxStep_val r e v]
    rfl

/-- Freezing: on a graph whose edges strictly increase a height function `d`,
the rank of a node of height `m` never changes after pass `m + 1`. -/
theorem freeze (edges : List DiagramEdge) (d : String → Nat)
    (Hd : ∀ e ∈ edges, d e.source < d e.target) (r0 : String → Nat) :
    ∀ (m : Nat) (v : String), d v = m → ∀ j, m + 1 ≤ j →
      passIter edges j r0 v = passIter edges (m + 1) r0 v := by
  intro m
  induction m using Nat.strong_induction_on with
  | _ m ihm =>
    intro v hdv j hj
    by_cases hin : ∃ e ∈ edges, e.target = v
    · have hsrcfr : ∀ e ∈ edges, e.target = v → ∀ i, m ≤ i →
          passIter edges i r0 e.source = passIter edges m r0 e.source := by
        intro e he hev i hi
        have hde : d e.source < m := by
          rw [← hdv, ← hev]; exact Hd e he
        have h1 := ihm (d e.source) hde e.source rfl i (by omega)
        have h2 := ihm (d e.source) hde e.source rfl m (by omega)
        rw [h1, h2]
      have hks : ∀ k, m ≤ k → passIter edges (k + 1) r0 v =
          MBb v edges (passIter edges m r0) (passIter edges k r0 v) := by
        intro k hk
        rw [passIter_succ edges k r0]
        have hflat : ∀ e ∈ edges, e.target = v →
            passFn edges (passIter edges k r0) e.source = passIter edges k r0 e.source := by
          intro e he hev
          have ha : passFn edges (passIter edges k r0) e.source =
              passIter edges (k + 1) r0 e.source :=
            congrFun (passIter_succ edges k r0).symm e.source
          rw [ha, hsrcfr e he hev (k + 1) (by omega), hsrcfr e he hev k hk]
        rw [foldVal v edges (passIter edges k r0) hflat]
        exact MBb_congr v edges _ _ _ (fun e he hev => hsrcfr e he hev k hk)
      have hstab : ∀ i, m + 1 ≤ i → passIter edges i r0 v =
          MBb v edges (passIter edges m r0) (passIter edges m r0 v) := by
        intro i hi
        induction i, hi using Nat.le_induction with
        | base => exact hks m (Nat.le_refl m)
        | succ i hi ih2 =>
          rw [hks i (by omega), ih2]
          exact MBb_idem v edges (passIter edges m r0) (passIter edges m r0 v)
      rw [hstab j hj, hstab (m + 1) (Nat.le_refl _)]
    · have hno : ∀ e ∈ edges, e.target ≠ v := by
        intro e he hev; exact hin ⟨e, he, hev⟩
      rw [passIter_notouch edges v hno j r0, passIter_notouch edges v hno (m + 1) r0]

/-- C3 counterexample.  The claim as stated fails: `c3edges` is acyclic
(witnessed by the strictly increasing height `c3topo`), the edge `A → B` has
both endpoints among the nodes, yet after the relaxation's `N + 2 = 4` passes
the ranks are `rank A = rank B = 4`.  The chain of dangling ids `X → … → F → A`
keeps every pass busy, so the budget of `nodes.length + 2` passes (counted over
the two real nodes only) is exhausted before the relaxation reaches its
fixpoint. -/
theorem rank_monotone_cex :
    (∀ e ∈ c3edges, c3topo e.source < c3topo e.target) ∧
    "A" ∈ c3nodes.map (·.id) ∧ "B" ∈ c3nodes.map (·.id) ∧
    c3edges[0]? = some { id := "e1", source := "A", target := "B" } ∧
    ¬ (computeRanks c3nodes c3edges "A" + 1 ≤ computeRanks c3nodes c3edges "B") := by
  refine ⟨by decide, by decide, by decide, by decide, by decide⟩

/-- C3 amended.  Layer monotonicity holds provided every edge endpoint is the
id of a node of the graph (no dangling references): for an acyclic graph —
acyclicity given as a strictly increasing height certificate `d` — the rank
table computed by the bounded relaxation satisfies
`rank(target) ≥ rank(source) + 1` for every edge. -/
theorem rank_monotone_no_dangling (nodes : List DiagramNode) (edges : List DiagramEdge)
    (hmem : ∀ e ∈ edges, e.source ∈ nodes.map (·.id) ∧ e.target ∈ nodes.map (·.id))
    (d : String → Nat) (Hd : ∀ e ∈ edges, d e.source < d e.target) :
    ∀ e ∈ edges, computeRanks nodes edges e.source + 1 ≤ computeRanks nodes edges e.target := by
  classical
  intro e he
  set S : Finset String := (edges.map (·.source) ++ edges.map (·.target)).toFinset with hS
  set d' : String → Nat := fun v => (S.filter (fun w => d w < d v)).card with hd'
  have hmemS : ∀ e' ∈ edges, e'.source ∈ S ∧ e'.target ∈ S := by
    intro e' he'
    constructor
    · exact List.mem_toFinset.mpr
        (List.mem_append_left _ (List.mem_map.mpr ⟨e', he', rfl⟩))
    · exact List.mem_toFinset.mpr
        (List.mem_append_right _ (List.mem_map.mpr ⟨e', he', rfl⟩))
  have Hd' : ∀ e' ∈ edges, d' e'.source < d' e'.target := by
    intro e' he'
    have h1 : S.filter (fun w => d w < d e'.source) ⊆ S.filter (fun w => d w < d e'.target) := by
      intro w hw
      rcases Finset.mem_filter.mp hw with ⟨hwS, hlt⟩
      exact Finset.mem_filter.mpr ⟨hwS, lt_trans hlt (Hd e' he')⟩
    have h2 : e'.source ∈ S.filter (fun w => d w < d e'.target) :=
      Finset.mem_filter.mpr ⟨(hmemS e' he').1, Hd e' he'⟩
    have h3 : e'.source ∉ S.filter (fun w => d w < d e'.source) := by
      intro hcon
      rcases Finset.mem_filter.mp hcon with ⟨_, hlt⟩
      exact lt_irrefl _ hlt
    exact Finset.card_lt_card ((Finset.ssubset_iff_of_subset h1).mpr ⟨e'.source, h2, h3⟩)
  have hbound : ∀ e' ∈ edges, d' e'.target < nodes.length := by
    intro e' he'
    have htS : e'.target ∈ S := (hmemS e' he').2
    have h1 : S.filter (fun w => d w < d e'.target) ⊆ S.erase e'.target := by
      intro w hw
      rcases Finset.mem_filter.mp hw with ⟨hwS, hlt⟩
      refine Finset.mem_erase.mpr ⟨?_, hwS⟩
      intro hwe
      rw [hwe] at hlt
      exact lt_irrefl _ hlt
    have h2 : (S.erase e'.target).card = S.card - 1 := Finset.card_erase_of_mem htS
    have h3 : S.card ≤ nodes.length := by
      have hsub : S ⊆ (nodes.map (·.id)).toFinset := by
        intro w hw
        rcases List.mem_append.mp (List.mem_toFinset.mp hw) with hws | hwt
        · rcases List.mem_map.mp hws with ⟨e2, he2, hre⟩
          rw [← hre]
          exact List.mem_toFinset.mpr (hmem e2 he2).1
        · rcases List.mem_map.mp hwt with ⟨e2, he2, hre⟩
          rw [← hre]
          exact List.mem_toFinset.mpr (hmem e2 he2).2
      calc S.card ≤ ((nodes.map (·.id)).toFinset).card := Finset.card_le_card hsub
        _ ≤ (nodes.map (·.id)).length := (nodes.map (·.id)).toFinset_card_le
        _ = nodes.length := List.length_map _ _
    have h4 : 1 ≤ S.card := Finset.card_pos.mpr ⟨e'.target, htS⟩
    have h5 := Finset.card_le_card h1
    have h6 : d' e'.target = (S.filter (fun w => d w < d e'.target)).card := rfl
    omega
  set r0 : String → Nat := (fun _ => 0) with hr0
  set T := nodes.length + 2 with hT
  have hCR : computeRanks nodes edges = passIter edges T r0 := computeRanks_eq_iter nodes edges
  have hmm : d' e.source < d' e.target := Hd' e he
  have hmN : d' e.target < nodes.length := hbound e he
  set m := d' e.target with hm
  set m' := d' e.source with hm'
  have h1 : passIter edges T r0 e.target = passIter edges (m + 1) r0 e.target :=
    freeze edges d' Hd' r0 m e.target hm.symm T (by omega)
  have h2 : passIter edges T r0 e.source = passIter edges (m' + 1) r0 e.source :=
    freeze edges d' Hd' r0 m' e.source hm'.symm T (by omega)
  have h3 : passIter edges m r0 e.source = passIter edges (m' + 1) r0 e.source :=
    freeze edges d' Hd' r0 m' e.source hm'.symm m (by omega)
  have hflat : ∀ e2 ∈ edges, e2.target = e.target →
      passFn edges (passIter edges m r0) e2.source = passIter edges m r0 e2.source := by
    intro e2 he2 hev
    have hde2 : d' e2.source < m := by
      have hx := Hd' e2 he2
      rw [hev] at hx
      exact hx
    have ha : passFn edges (passIter edges m r0) e2.source =
        passIter edges (m + 1) r0 e2.source :=
      congrFun (passIter_succ edges m r0).symm e2.source
    have hb := freeze edges d' Hd' r0 (d' e2.source) e2.source rfl (m + 1) (by omega)
    have hcd := freeze edges d' Hd' r0 (d' e2.source) e2.source rfl m (by omega)
    rw [ha, hb, hcd]
  have h4 : passIter edges (m + 1) r0 e.target =
      MBb e.target edges (passIter edges m r0) (passIter edges m r0 e.target) := by
    rw [passIter_succ edges m r0]
    exact foldVal e.target edges (passIter edges m r0) hflat
  have h5 : passIter edges m r0 e.source + 1 ≤
      MBb e.target edges (passIter edges m r0) (passIter edges m r0 e.target) :=
    MBb_ge_elem e.target edges (passIter edges m r0) _ e he rfl
  rw [hCR, h1, h4, h2, ← h3]
  exact h5

/-- C3 witness: on the dangling-free acyclic edge `P → Q` over nodes `P, Q`,
the amended theorem yields `rank Q ≥ rank P + 1`. -/
theorem rank_monotone_no_dangling_witness :
    computeRanks c3wnodes c3wedges "P" + 1 ≤ computeRanks c3wnodes c3wedges "Q" := by
  have h := rank_monotone_no_dangling c3wnodes c3wedges (by decide) c3wd (by decide)
    { id := "PQ", source := "P", target := "Q" } (by decide)
  exact h

/-- C7 counterexample.  The claim says Flowchart inputs are laid out
top-to-bottom regardless of the user-chosen layout style.  In the code the
layered direction is chosen by the style (`style === RADIAL ? 'LR' : 'TB'`):
for a flowchart `A → B` with style `RADIAL`, node `B` has rank 1 but keeps
`y = 0` and moves to `x = 300` — a left-to-right layout, not top-to-bottom. -/
theorem layered_direction_cex :
    computeRanks c7nodes c7edges "A" = 0 ∧
    computeRanks c7nodes c7edges "B" = 1 ∧
    ((applyLayout c7nodes c7edges .RADIAL .FLOWCHART).1.map (·.position)) =
      [⟨0, 0⟩, ⟨300, 0⟩] := by
  refine ⟨by decide, by decide, by decide⟩

/-- C7 amended.  For Flowchart and OrgChart inputs the layered layout is used
with direction top-to-bottom unless the user-chosen layout style is Radial, in
which case it is left-to-right; top-to-bottom places a node of rank `r` at
`y = r * 100`, left-to-right at `x = r * 300`.  (Mindmap inputs never reach the
layered layout in the current engine: they use the dedicated balanced
horizontal tree.) -/
theorem layered_direction_amended (nodes : List DiagramNode) (edges : List DiagramEdge)
    (style : LayoutStyle) (dt : DiagramType)
    (hdt : dt = .FLOWCHART ∨ dt = .ORG_CHART)
    (i : Nat) (n : DiagramNode) (hn : nodes[i]? = some n) :
    ((applyLayout nodes edges style dt).1[i]?).map (·.position) =
      some (layeredPosition nodes edges (computeRanks nodes edges)
        (if style = .RADIAL then .LR else .TB) i n) ∧
    (style ≠ .RADIAL →
      (layeredPosition nodes edges (computeRanks nodes edges)
        (if style = .RADIAL then .LR else .TB) i n).y =
        (computeRanks nodes edges n.id : Int) * 100) ∧
    (style = .RADIAL →
      (layeredPosition nodes edges (computeRanks nodes edges)
        (if style = .RADIAL then .LR else .TB) i n).x =
        (computeRanks nodes edges n.id : Int) * 300) := by
  have hmain : (applyLayout nodes edges style dt).1 =
      layoutLayered nodes edges (if style = .RADIAL then .LR else .TB) := by
    rcases hdt with h | h <;> (subst h; rfl)
  refine ⟨?_, ?_, ?_⟩
  · rw [hmain]
    unfold layoutLayered
    rw [List.getElem?_map, List.getElem?_enum, hn]
    rfl
  · intro hs
    rw [if_neg hs]
    rfl
  · intro hs
    rw [if_pos hs]
    rfl

/-- C7 witness: flowchart `A → B` with the non-radial style `TREE` is laid out
top-to-bottom, node `B` (rank 1) at `y = 100`. -/
theorem layered_direction_amended_witness :
    ((applyLayout c7nodes c7edges .TREE .FLOWCHART).1[1]?).map (·.position) =
      some (layeredPosition c7nodes c7edges (computeRanks c7nodes c7edges)
        (if (LayoutStyle.TREE : LayoutStyle) = .RADIAL then .LR else .TB) 1
        { id := "B", label := "B" }) ∧
    (layeredPosition c7nodes c7edges (computeRanks c7nodes c7edges)
        (if (LayoutStyle.TREE : LayoutStyle) = .RADIAL then .LR else .TB) 1
        { id := "B", label := "B" }).y =
      (computeRanks c7nodes c7edges "B" : Int) * 100 := by
  have h := layered_direction_amended c7nodes c7edges .TREE .FLOWCHART (Or.inl rfl) 1
    { id := "B", label := "B" } (by decide)
  exact ⟨h.1, h.2.1 (by decide)⟩

/-- C6 counterexample.  The claim says every island is placed outside the
bounding box of the main connected structure.  In `layoutMindmap` the islands
are stacked at `x = 0` starting at `y = rootChildCount * 100`: for a root with
one child fanning out to five leaves, the connected structure spans
`x ∈ [0, 500]`, `y ∈ [-120, 120]`, and the island `I` is placed at `(0, 100)` —
strictly inside that bounding box. -/
theorem island_bbox_cex :
    ((applyLayout c6nodes c6edges .TREE .MINDMAP).1.map (fun n => (n.id, n.position))) =
      [("R", ⟨0, 0⟩), ("A", ⟨250, 0⟩), ("L1", ⟨500, -120⟩), ("L2", ⟨500, -60⟩),
       ("L3", ⟨500, 0⟩), ("L4", ⟨500, 60⟩), ("L5", ⟨500, 120⟩), ("I", ⟨0, 100⟩)] ∧
    inBBox ⟨0, 100⟩
      [⟨0, 0⟩, ⟨250, 0⟩, ⟨500, -120⟩, ⟨500, -60⟩, ⟨500, 0⟩, ⟨500, 60⟩, ⟨500, 120⟩] = true := by
  refine ⟨by decide, by decide⟩

theorem amp_island (posMap : List (String × Position)) (positioned : List String) (rc : Nat) :
    ∀ (l : List DiagramNode) (seen : List String) (k : Nat) (i : Nat) (n : DiagramNode),
      l[i]? = some n → n.id ∉ positioned →
      ((applyMindmapPositions posMap positioned rc l seen k)[i]?).map (·.position) =
        some ⟨0, (rc : Int) * 100 +
          ((k + ((l.take i).filter
            (fun n2 => decide (n2.id ∉ positioned))).length : Nat) : Int) * 100⟩ := by
  intro l
  induction l with
  | nil => intro seen k i n hn; simp at hn
  | cons n0 rest ih =>
    intro seen k i n hn hni
    cases i with
    | zero =>
      have hn0 : n0 = n := by simpa using hn
      subst hn0
      simp [applyMindmapPositions, hni]
    | succ j =>
      have hnj : rest[j]? = some n := by simpa using hn
      by_cases hp : n0.id ∈ positioned
      · have hstep : applyMindmapPositions posMap positioned rc (n0 :: rest) seen k =
            (if n0.id ∈ seen then n0
             else { n0 with position := (lookupPos posMap n0.id).getD n0.position }) ::
              applyMindmapPositions posMap positioned rc rest (n0.id :: seen) k := by
          simp [applyMindmapPositions, hp]
        rw [hstep]
        have htake : ((n0 :: rest).take (j + 1)).filter (fun n2 => decide (n2.id ∉ positioned)) =
            (rest.take j).filter (fun n2 => decide (n2.id ∉ positioned)) := by
          simp [List.take, List.filter, hp]
        rw [htake]
        simpa using ih (n0.id :: seen) k j n hnj hni
      · have hstep : applyMindmapPositions posMap positioned rc (n0 :: rest) seen k =
            { n0 with position := ⟨0, (rc : Int) * 100 + (k : Int) * 100⟩ } ::
              applyMindmapPositions posMap positioned rc rest (n0.id :: seen) (k + 1) := by
          simp [applyMindmapPositions, hp]
        rw [hstep]
        have htake : (((n0 :: rest).take (j + 1)).filter
            (fun n2 => decide (n2.id ∉ positioned))).length =
            ((rest.take j).filter (fun n2 => decide (n2.id ∉ positioned))).length + 1 := by
          simp [List.take, List.filter, hp]
        rw [htake]
        have := ih (n0.id :: seen) (k + 1) j n hnj hni
        simpa [Nat.add_assoc, Nat.add_comm 1] using this

/-- C6 amended.  In the mindmap tree layout every node whose id the traversal
never positioned (an island) is kept in the output and receives the
deterministic fallback position `(0, rootChildCount * 100 + i * 100)`, `i` its
index among the islands; the position is deterministic but need not lie
outside the bounding box of the main connected structure (see the
counterexample). -/
theorem island_fallback (nodes : List DiagramNode) (edges : List DiagramEdge)
    (i : Nat) (n : DiagramNode) (hn : nodes[i]? = some n)
    (hni : n.id ∉ (mindmapState nodes edges).1.positioned) :
    (layoutMindmap nodes edges).length = nodes.length ∧
    ((layoutMindmap nodes edges)[i]?).map (·.position) =
      some ⟨0, ((mindmapState nodes edges).2 : Int) * 100 +
        (((nodes.take i).filter
          (fun n2 => decide (n2.id ∉ (mindmapState nodes edges).1.positioned))).length : Int) *
          100⟩ := by
  have hlen : (layoutMindmap nodes edges).length = nodes.length := by
    have h := layoutMindmap_map_proj (·.id) (fun _ _ => rfl) nodes edges
    simpa using congrArg List.length h
  refine ⟨hlen, ?_⟩
  match nodes, hn with
  | n0 :: rest, hn =>
    show ((applyMindmapPositions (mindmapState (n0 :: rest) edges).1.posMap
        (mindmapState (n0 :: rest) edges).1.positioned
        (mindmapState (n0 :: rest) edges).2 (n0 :: rest) [] 0)[i]?).map (·.position) = _
    have h := amp_island (mindmapState (n0 :: rest) edges).1.posMap
      (mindmapState (n0 :: rest) edges).1.positioned
      (mindmapState (n0 :: rest) edges).2 (n0 :: rest) [] 0 i n hn hni
    simpa using h

/-- C6 witness: in the concrete island graph, the island `I` (input index 7,
first island) is kept and placed at the fallback position; its computed
position is `(0, 1 * 100 + 0 * 100) = (0, 100)`. -/
theorem island_fallback_witness :
    (layoutMindmap c6nodes c6edges).length = c6nodes.length ∧
    ((layoutMindmap c6nodes c6edges)[7]?).map (·.position) =
      some ⟨0, ((mindmapState c6nodes c6edges).2 : Int) * 100 +
        (((c6nodes.take 7).filter
          (fun n2 => decide (n2.id ∉ (mindmapState c6nodes c6edges).1.positioned))).length : Int) *
          100⟩ :=
  island_fallback c6nodes c6edges 7 { id := "I", label := "I" } (by decide) (by decide)

/-! ### Branch coloring: invariants -/

theorem styledOrKept_refl (e : DiagramEdge) : styledOrKept e e := Or.inl rfl

theorem styleFirst_forall2 (p : DiagramEdge → Bool) (c : String) (hc : c ∈ BRANCH_COLORS) :
    ∀ (orig cur : List DiagramEdge), List.Forall₂ styledOrKept orig cur →
      List.Forall₂ styledOrKept orig (styleFirst p ⟨c, 2⟩ cur) := by
  intro orig cur h
  induction h with
  | nil => exact List.Forall₂.nil
  | cons hrel hrest ih =>
    rename_i e0 e1 l0 l1
    by_cases hp : p e1
    · have hrw : styleFirst p ⟨c, 2⟩ (e1 :: l1) =
          { e1 with style := some ⟨c, 2⟩, animated := some false } :: l1 := by
        simp [styleFirst, hp]
      rw [hrw]
      have hhead : styledOrKept e0 { e1 with style := some ⟨c, 2⟩, animated := some false } := by
        rcases hrel with h0 | ⟨c2, _, h0⟩
        · subst h0; exact Or.inr ⟨c, hc, rfl⟩
        · subst h0; exact Or.inr ⟨c, hc, rfl⟩
      exact List.Forall₂.cons hhead hrest
    · have hrw : styleFirst p ⟨c, 2⟩ (e1 :: l1) = e1 :: styleFirst p ⟨c, 2⟩ l1 := by
        simp [styleFirst, hp]
      rw [hrw]
      exact List.Forall₂.cons hrel ih

theorem palette_getD_mem (i : Nat) :
    BRANCH_COLORS.getD (i % BRANCH_COLORS.length) "" ∈ BRANCH_COLORS := by
  rw [List.getD_eq_getElem BRANCH_COLORS "" (Nat.mod_lt _ (by decide))]
  exact List.getElem_mem ..

theorem colorChildren_inv (edges0 : List DiagramEdge) (id c : String)
    (children : List String) (st : CState) (hc : c ∈ BRANCH_COLORS)
    (h : colorInv edges0 st) : colorInv edges0 (colorChildren id c children st) := by
  unfold colorChildren
  refine foldl_preserve _ (colorInv edges0) ?_ children st h
  intro st2 cid h2
  by_cases hcid : (st2.colors cid).isSome
  · simpa [hcid] using h2
  · rcases h2 with ⟨hcol, hq, hf⟩
    rw [if_neg hcid]
    refine ⟨?_, ?_, styleFirst_forall2 _ _ hc _ _ hf⟩
    · intro v c2 hvc
      have hvc2 : (if v = cid then some c else st2.colors v) = some c2 := hvc
      by_cases hv : v = cid
      · rw [if_pos hv] at hvc2
        cases hvc2
        exact hc
      · rw [if_neg hv] at hvc2
        exact hcol v c2 hvc2
    · intro q hq2 c2 hc2
      rcases List.mem_append.mp hq2 with h1 | h2
      · exact hq q h1 c2 hc2
      · rcases List.mem_singleton.mp h2 with rfl
        cases hc2
        exact hc

theorem bfsColor_inv (allEdges edges0 : List DiagramEdge) :
    ∀ (fuel : Nat) (st : CState), colorInv edges0 st →
      colorInv edges0 (bfsColor allEdges fuel st) := by
  intro fuel
  induction fuel with
  | zero => intro st h; exact h
  | succ fuel ih =>
    intro st h
    rcases h with ⟨hcol, hq, hf⟩
    match hqe : st.queue with
    | [] =>
      rw [show bfsColor allEdges (fuel + 1) st = st from by simp [bfsColor, hqe]]
      exact ⟨hcol, hq, hf⟩
    | (v, none) :: rest =>
      rw [show bfsColor allEdges (fuel + 1) st =
          bfsColor allEdges fuel { st with queue := rest } from by simp [bfsColor, hqe]]
      refine ih _ ⟨hcol, ?_, hf⟩
      intro q hq2 c2 hc2
      exact hq q (by rw [hqe]; exact List.mem_cons_of_mem _ hq2) c2 hc2
    | (v, some c) :: rest =>
      rw [show bfsColor allEdges (fuel + 1) st =
          bfsColor allEdges fuel (colorChildren v c (adjOf allEdges v) { st with queue := rest })
          from by simp [bfsColor, hqe]]
      have hcmem : c ∈ BRANCH_COLORS :=
        hq (v, some c) (by rw [hqe]; exact List.mem_cons_self _ _) c rfl
      refine ih _ (colorChildren_inv edges0 v c _ _ hcmem ⟨hcol, ?_, hf⟩)
      intro q hq2 c2 hc2
      exact hq q (by rw [hqe]; exact List.mem_cons_of_mem _ hq2) c2 hc2

theorem initBranch_inv (rootId : String) (rootChildren : List String)
    (edges : List DiagramEdge) : colorInv edges (initBranch rootId rootChildren edges) := by
  unfold initBranch
  refine foldl_preserve _ (colorInv edges) ?_ _ _ ?_
  · intro st p h
    rcases h with ⟨hcol, hq, hf⟩
    refine ⟨?_, ?_, styleFirst_forall2 _ _ (palette_getD_mem p.1) _ _ hf⟩
    · intro v c2 hvc
      have hvc' : updC st.colors p.2 (BRANCH_COLORS.getD (p.1 % BRANCH_COLORS.length) "") v =
          some c2 := hvc
      unfold updC at hvc'
      by_cases hv : v = p.2
      · rw [if_pos hv] at hvc'
        cases hvc'
        exact palette_getD_mem p.1
      · rw [if_neg hv] at hvc'
        exact hcol v c2 hvc'
    · intro q hq2 c2 hc2
      rcases List.mem_append.mp hq2 with h1 | h2
      · exact hq q h1 c2 hc2
      · rcases List.mem_singleton.mp h2 with rfl
        cases hc2
        exact palette_getD_mem p.1
  · refine ⟨fun v c h => Option.noConfusion h, fun q hq => absurd hq (List.not_mem_nil q), ?_⟩
    exact List.forall₂_same.mpr (fun e _ => styledOrKept_refl e)

theorem assignBranchColors_styledOrKept (nds : List DiagramNode) (eds : List DiagramEdge) :
    List.Forall₂ styledOrKept eds (assignBranchColors nds eds) := by
  match nds with
  | [] => exact List.forall₂_same.mpr (fun e _ => styledOrKept_refl e)
  | n0 :: rest =>
    show List.Forall₂ styledOrKept eds (branchFinal (n0 :: rest) eds).edges
    unfold branchFinal
    exact (bfsColor_inv eds eds _ _ (initBranch_inv _ _ eds)).2.2

theorem colorChildren_extends (id c : String) (children : List String) (st : CState)
    (v : String) (c2 : String) (h : st.colors v = some c2) :
    (colorChildren id c children st).colors v = some c2 := by
  unfold colorChildren
  refine foldl_preserve _ (fun s : CState => s.colors v = some c2) ?_ children st h
  intro st2 cid h2
  by_cases hcid : (st2.colors cid).isSome
  · simpa [hcid] using h2
  · rw [if_neg hcid]
    have hne : v ≠ cid := by
      intro he
      rw [← he, h2] at hcid
      simp at hcid
    show updC st2.colors cid c v = some c2
    unfold updC
    rw [if_neg hne]
    exact h2

theorem bfsColor_extends (allEdges : List DiagramEdge) :
    ∀ (fuel : Nat) (st : CState) (v c : String), st.colors v = some c →
      (bfsColor allEdges fuel st).colors v = some c := by
  intro fuel
  induction fuel with
  | zero => intro st v c h; exact h
  | succ fuel ih =>
    intro st v c h
    match hqe : st.queue with
    | [] =>
      rw [show bfsColor allEdges (fuel + 1) st = st from by simp [bfsColor, hqe]]
      exact h
    | (w, none) :: rest =>
      rw [show bfsColor allEdges (fuel + 1) st =
          bfsColor allEdges fuel { st with queue := rest } from by simp [bfsColor, hqe]]
      exact ih _ v c h
    | (w, some cw) :: rest =>
      rw [show bfsColor allEdges (fuel + 1) st =
          bfsColor allEdges fuel (colorChildren w cw (adjOf allEdges w) { st with queue := rest })
          from by simp [bfsColor, hqe]]
      exact ih _ v c (colorChildren_extends w cw _ _ v c h)

theorem initFold_notouch (rootId : String) (v : String) :
    ∀ (l : List (Nat × String)) (st : CState), (∀ q ∈ l, q.2 ≠ v) →
      (l.foldl (initStep rootId) st).colors v = st.colors v := by
  intro l
  induction l with
  | nil => intro st _; rfl
  | cons p l ih =>
    intro st h
    show (l.foldl (initStep rootId) (initStep rootId st p)).colors v = st.colors v
    rw [ih _ (fun q hq => h q (List.mem_cons_of_mem p hq))]
    show updC st.colors p.2 _ v = st.colors v
    unfold updC
    rw [if_neg (fun hv => (h p (List.mem_cons_self p l)) hv.symm)]

theorem initFold_assigned (rootId : String) :
    ∀ (l : List (Nat × String)) (st : CState), (l.map (·.2)).Nodup →
      ∀ p ∈ l, (l.foldl (initStep rootId) st).colors p.2 =
        some (BRANCH_COLORS.getD (p.1 % BRANCH_COLORS.length) "") := by
  intro l
  induction l with
  | nil => intro st _ p hp; cases hp
  | cons p0 l ih =>
    intro st hnd p hp
    have hnd1 : (p0.2 :: l.map (·.2)).Nodup := by simpa using hnd
    have hnd2 := List.nodup_cons.mp hnd1
    rcases List.mem_cons.mp hp with h0 | hmem
    · subst h0
      show (l.foldl (initStep rootId) (initStep rootId st p)).colors p.2 = _
      have hnt : ∀ q ∈ l, q.2 ≠ p.2 := by
        intro q hq he
        exact hnd2.1 (he ▸ List.mem_map.mpr ⟨q, hq, rfl⟩)
      rw [initFold_notouch rootId p.2 l _ hnt]
      show updC st.colors p.2 _ p.2 = _
      unfold updC
      rw [if_pos rfl]
    · exact ih _ hnd2.2 p hmem

theorem initBranch_colors_nodup (rootId : String) (edges : List DiagramEdge)
    (rcs : List String) (hnodup : rcs.Nodup) (k : Nat) (hk : k < rcs.length) :
    (initBranch rootId rcs edges).colors (rcs.get ⟨k, hk⟩) =
      some (BRANCH_COLORS.getD (k % BRANCH_COLORS.length) "") := by
  unfold initBranch
  have hsome : rcs.enum[k]? = some (k, rcs.get ⟨k, hk⟩) := by
    rw [List.getElem?_enum, List.getElem?_eq_getElem hk]
    rfl
  have hmem : (k, rcs.get ⟨k, hk⟩) ∈ rcs.enum := List.getElem?_mem hsome
  have hnd : (rcs.enum.map (·.2)).Nodup := by
    rw [show rcs.enum.map (·.2) = rcs from List.enum_map_snd rcs]
    exact hnodup
  exact initFold_assigned rootId rcs.enum ⟨fun _ => none, [], edges⟩ hnd _ hmem

theorem palette_distinct : ∀ k < 10, ∀ j < 10, k ≠ j →
    BRANCH_COLORS.getD k "" ≠ BRANCH_COLORS.getD j "" := by decide

/-- C4 counterexample.  The claim says already-colored nodes are never
recolored and every descendant is colored identically to its branch's root
child.  With the duplicate edge `A → B` the root's child list is `[B, C, B]`:
`B` is first colored palette[0] (blue `#2563eb`), then recolored palette[2]
(amber `#d97706`) by its second occurrence; meanwhile its descendant `D` is
colored with the queued blue.  In the output, the edge above `D` is blue while
`B` itself (and the first edge `A → B`) carries amber — the descendant's color
differs from its branch child's color, and `B` was recolored. -/
theorem branch_recolor_cex :
    ((applyLayout c4nodes c4edges .TREE .MINDMAP).2.map (fun e => (e.id, e.style))) =
      [("e1", some (⟨"#d97706", 2⟩ : EdgeStyle)), ("e2", some (⟨"#db2777", 2⟩ : EdgeStyle)),
       ("e3", (none : Option EdgeStyle)), ("e4", some (⟨"#2563eb", 2⟩ : EdgeStyle))] ∧
    (branchFinal c4nodes c4edges).colors "B" = some "#d97706" ∧
    (branchFinal c4nodes c4edges).colors "D" = some "#2563eb" := by
  refine ⟨by decide, by decide, by decide⟩

/-- C4 amended.  For the branch coloring of Mindmap/OrgChart diagrams:
(1) the BFS propagation phase never recolors — any color present after the
root-children initialization survives to the final map (first-assignment wins
from then on); (2) when the root's child list has no duplicates, the child at
index `k` is colored `palette[k mod paletteSize]`; (3) under the same
condition, children at distinct indices receive distinct colors as long as the
child count does not exceed the palette size.  (During initialization itself a
child listed twice by duplicate root edges is re-assigned, later index
winning — see the counterexample.) -/
theorem branch_colors_amended (nodes : List DiagramNode) (edges : List DiagramEdge)
    (n0 : DiagramNode) (rest : List DiagramNode) (hns : nodes = n0 :: rest) :
    (∀ v c,
      (initBranch (branchRoot nodes edges n0).id
        (adjOf edges (branchRoot nodes edges n0).id) edges).colors v = some c →
      (branchFinal nodes edges).colors v = some c) ∧
    ((adjOf edges (branchRoot nodes edges n0).id).Nodup →
      (∀ (k : Nat) (hk : k < (adjOf edges (branchRoot nodes edges n0).id).length),
        (initBranch (branchRoot nodes edges n0).id
          (adjOf edges (branchRoot nodes edges n0).id) edges).colors
            ((adjOf edges (branchRoot nodes edges n0).id).get ⟨k, hk⟩) =
          some (BRANCH_COLORS.getD (k % BRANCH_COLORS.length) "")) ∧
      ((adjOf edges (branchRoot nodes edges n0).id).length ≤ BRANCH_COLORS.length →
        ∀ (k j : Nat) (hk : k < (adjOf edges (branchRoot nodes edges n0).id).length)
          (hj : j < (adjOf edges (branchRoot nodes edges n0).id).length), k ≠ j →
          (initBranch (branchRoot nodes edges n0).id
            (adjOf edges (branchRoot nodes edges n0).id) edges).colors
              ((adjOf edges (branchRoot nodes edges n0).id).get ⟨k, hk⟩) ≠
          (initBranch (branchRoot nodes edges n0).id
            (adjOf edges (branchRoot nodes edges n0).id) edges).colors
              ((adjOf edges (branchRoot nodes edges n0).id).get ⟨j, hj⟩))) := by
  subst hns
  constructor
  · intro v c h
    show (bfsColor edges (2 * edges.length + 2)
        (initBranch (branchRoot (n0 :: rest) edges n0).id
          (adjOf edges (branchRoot (n0 :: rest) edges n0).id) edges)).colors v = some c
    exact bfsColor_extends edges _ _ v c h
  · intro hnd
    refine ⟨fun k hk => initBranch_colors_nodup _ edges _ hnd k hk, ?_⟩
    intro hlen k j hk hj hkj
    rw [initBranch_colors_nodup _ edges _ hnd k hk, initBranch_colors_nodup _ edges _ hnd j hj]
    intro hcon
    have hk10 : k < BRANCH_COLORS.length := lt_of_lt_of_le hk hlen
    have hj10 : j < BRANCH_COLORS.length := lt_of_lt_of_le hj hlen
    rw [Nat.mod_eq_of_lt hk10, Nat.mod_eq_of_lt hj10] at hcon
    exact palette_distinct k hk10 j hj10 hkj (Option.some.inj hcon)

/-- C4 witness: root `A` with distinct children `B, C`; `B` (index 0) is
colored palette[0] and that color survives BFS into the final map. -/
theorem branch_colors_amended_witness :
    (branchFinal c4wnodes c4wedges).colors "B" = some "#2563eb" := by
  have h := branch_colors_amended c4wnodes c4wedges c4wn0 c4wrest rfl
  exact h.1 "B" "#2563eb" (by decide)

/-- C5 counterexample.  The claim says every output edge has `style` and
`animated` populated.  For a Mindmap the coloring only styles BFS-tree edges:
in the diamond `A → B`, `A → C`, `B → C`, node `C` is already colored as the
root's direct child when the BFS reaches the cross edge `B → C`, so that edge
is returned with `style = none` and `animated = none`. -/
theorem edges_styled_cex :
    ((applyLayout c5nodes c5edges .TREE .MINDMAP).2.map (fun e => (e.id, e.style, e.animated))) =
      [("AB", some (⟨"#2563eb", 2⟩ : EdgeStyle), some false),
       ("AC", some (⟨"#db2777", 2⟩ : EdgeStyle), some false),
       ("BC", (none : Option EdgeStyle), (none : Option Bool))] := by
  decide

/-- C5 amended.  Every input edge is returned, in order, and its styling
follows the diagram type: for Flowchart/ERD every returned edge carries the
uniform neutral style (`#64748b`, width 2, not animated) — dangling references
included; for Mindmap/OrgChart each returned edge either is the input edge
unchanged (edges outside the BFS coloring tree keep their input `style` and
`animated`) or carries a branch-palette stroke of width 2 with
`animated = false`. -/
theorem edges_styled_amended (nodes : List DiagramNode) (edges : List DiagramEdge)
    (style : LayoutStyle) :
    (∀ dt, dt = DiagramType.FLOWCHART ∨ dt = DiagramType.ERD →
      ∀ e1 ∈ (applyLayout nodes edges style dt).2,
        e1.style = some ⟨"#64748b", 2⟩ ∧ e1.animated = some false) ∧
    (∀ dt, dt = DiagramType.MINDMAP ∨ dt = DiagramType.ORG_CHART →
      List.Forall₂ styledOrKept edges (applyLayout nodes edges style dt).2) := by
  constructor
  · intro dt hdt e1 he1
    have h2 : (applyLayout nodes edges style dt).2 = edges.map uniformEdge := by
      rcases hdt with h | h <;> (subst h; rfl)
    rw [h2] at he1
    rcases List.mem_map.mp he1 with ⟨e0, _, rfl⟩
    exact ⟨rfl, rfl⟩
  · intro dt hdt
    have h2 : (applyLayout nodes edges style dt).2 =
        assignBranchColors (applyLayout nodes edges style dt).1 edges := by
      rcases hdt with h | h <;> (subst h; rfl)
    rw [h2]
    exact assignBranchColors_styledOrKept _ edges

/-- C5 witness: a Flowchart/ERD edge is returned uniformly styled, and on the
concrete diamond Mindmap every returned edge is the input edge either kept or
branch-styled. -/
theorem edges_styled_amended_witness :
    ((uniformEdge c5wedge).style = some (⟨"#64748b", 2⟩ : EdgeStyle) ∧
      (uniformEdge c5wedge).animated = some false) ∧
    List.Forall₂ styledOrKept c5edges (applyLayout c5nodes c5edges .TREE .MINDMAP).2 := by
  constructor
  · exact (edges_styled_amended [] [c5wedge] .TREE).1 .ERD (Or.inr rfl) (uniformEdge c5wedge)
      (by decide)
  · exact (edges_styled_amended c5nodes c5edges .TREE).2 .MINDMAP (Or.inl rfl)

end Mindmaps
